import Mathlib

/-!
Shallow embedding of the `acdb` command-dispatch core (`src/commands_core.py`)
and its generic utilities (`src/utils.py`), with theorems checking the
natural-language specification against the code.

Python strings are modelled as `List Char`; Python `None`-able values as
`Option`; code that can raise is modelled in `Except` with an abstract
runtime-error payload (`Nat`).  External boundary collaborators (permission
resolver, channel classifier, tournament-account lookup, tournament-state
validator, persistence) are modelled as an explicit environment record of
functions, since the code only calls them and branches on their results.
-/

namespace ACDB

/-- Shorthand turning a Lean string literal into the `List Char` string model. -/
def lit (s : String) : List Char := s.toList

/-- The characters Python `str.splitlines` treats as line breaks
(`\n`, `\r`, `\v`, `\f`, FS, GS, RS, NEL, LINE SEPARATOR, PARAGRAPH SEPARATOR);
`\r\n` is additionally handled as a single break by `splitlinesKE`. -/
def isPyLineBreak (c : Char) : Bool :=
  c = '\n' || c = '\r' || c = '\x0b' || c = '\x0c' ||
  c = '\x1c' || c = '\x1d' || c = '\x1e' || c = '\x85' ||
  c = '\u2028' || c = '\u2029'

/-- Python `str.splitlines(True)` (keepends): split into lines, each line
keeping its terminating break sequence (`\r\n` counts as one break); a trailing
fragment without a break is its own line; the empty string gives `[]`.
Used by `paginate`. -/
def splitlinesKE : List Char → List (List Char)
  | [] => []
  | c :: rest =>
    if c = '\r' ∧ rest.head? = some '\n' then
      ['\r', '\n'] :: splitlinesKE rest.tail
    else if isPyLineBreak c then [c] :: splitlinesKE rest
    else
      match splitlinesKE rest with
      | [] => [[c]]
      | l :: ls => (c :: l) :: ls
termination_by s => s.length
decreasing_by
  · cases rest <;> simp <;> omega
  · simp
  · simp

/-- Python `str.splitlines()` (no keepends): like `splitlinesKE` but the break
characters are dropped from the lines. Used by `Command.simple_print`. -/
def splitlinesPlain : List Char → List (List Char)
  | [] => []
  | '\r' :: '\n' :: rest => [] :: splitlinesPlain rest
  | c :: rest =>
    if isPyLineBreak c then [] :: splitlinesPlain rest
    else
      match splitlinesPlain rest with
      | [] => [[c]]
      | l :: ls => (c :: l) :: ls

/-- The characters Python `str.split()` (no argument) treats as whitespace
(ASCII whitespace plus FS/GS/RS/US, NEL and NBSP; further Unicode space
classes are not used by any claim). -/
def isPySpace (c : Char) : Bool :=
  c = ' ' || c = '\t' || c = '\n' || c = '\r' || c = '\x0b' || c = '\x0c' ||
  c = '\x1c' || c = '\x1d' || c = '\x1e' || c = '\x1f' || c = '\x85' || c = '\xa0'

/-- Scanner for Python `str.split()` with no argument: `cur` is the current
token accumulated in reverse; whitespace closes the current token (if any),
any other character extends it; the final token is flushed at the end. -/
def pySplitAux (cur : List Char) : List Char → List (List Char)
  | [] => if cur.isEmpty then [] else [cur.reverse]
  | c :: rest =>
    if isPySpace c then
      if cur.isEmpty then pySplitAux [] rest
      else cur.reverse :: pySplitAux [] rest
    else pySplitAux (c :: cur) rest

/-- Python `str.split()` with no argument: split on runs of whitespace,
discarding empty tokens. Used by `_get_command_and_postcommand`. -/
def pySplit (s : List Char) : List (List Char) := pySplitAux [] s

/-- `paginate`'s line-walking loop over `split = dump.splitlines(True)`:
state is `(page_index, len_count)`; the last line always flushes
`dump[page_index:]`; a line that would reach `max_per_page` first flushes
`dump[page_index : page_index + len_count]` and restarts the count at the
line's own length; otherwise the line's length is accumulated.  Python slice
`dump[a : a + n]` is `(dump.drop a).take n` and `dump[a:]` is `dump.drop a`. -/
def pagLoop (dump : List Char) (maxPerPage : Nat) :
    List (List Char) → Nat → Nat → List (List Char)
  | [], _, _ => []
  | [_line], pageIndex, _lenCount => [dump.drop pageIndex]
  | line :: next :: rest, pageIndex, lenCount =>
    if maxPerPage ≤ lenCount + line.length then
      (dump.drop pageIndex).take lenCount ::
        pagLoop dump maxPerPage (next :: rest) (pageIndex + lenCount) line.length
    else
      pagLoop dump maxPerPage (next :: rest) pageIndex (lenCount + line.length)

/-- `utils.paginate(dump, max_per_page=2000)`: a text whose length is below
the limit is the sole page; otherwise the line-walking loop splits it. -/
def paginate (dump : List Char) (maxPerPage : Nat := 2000) : List (List Char) :=
  if dump.length < maxPerPage then [dump]
  else pagLoop dump maxPerPage (splitlinesKE dump) 0 0

/-- One attempted match of the regex `<@!?([0-9]+)>` immediately after an
already-seen `<@`: a maximal nonempty run of digits that must be followed by
`>`.  Returns the captured digits and the remainder of the input after the
match.  (Because `>` is not a digit, the greedy digit run is the only viable
one, so no backtracking over the run's length exists.) -/
def tryDigits (l : List Char) : Option (List Char × List Char) :=
  let ds := l.takeWhile Char.isDigit
  if ds.isEmpty then none
  else
    match l.dropWhile Char.isDigit with
    | c0 :: rest0 => if c0 = '>' then some (ds, rest0) else none
    | [] => none

/-- Continuation of a match of `<@!?([0-9]+)>` after the opening `<`:
an `@`, then the digit run, with one `!` optionally skipped in between.
(When the `!` is present but not followed by digits, the regex's empty-`!?`
alternative also fails, since `!` is not a digit — so no alternative is lost.) -/
def tryMention (l : List Char) : Option (List Char × List Char) :=
  match l with
  | [] => none
  | c :: rest =>
    if c = '@' then
      if rest.head? = some '!' then tryDigits rest.tail else tryDigits rest
    else none

/-- Python `re.findall(r'<@!?([0-9]+)>', mention)`: scan left to right; at a
`<` attempt the rest of the pattern, on success emit the captured digits and
resume after the match, on failure resume at the next character. -/
def findMentions : List Char → List (List Char)
  | [] => []
  | c :: rest =>
    if c = '<' then
      match h : tryMention rest with
      | some (ds, rem) => ds :: findMentions rem
      | none => findMentions rest
    else findMentions rest
termination_by l => l.length
decreasing_by
  · have hd : ∀ (l1 ds1 rem1 : List Char),
        tryDigits l1 = some (ds1, rem1) → rem1.length < l1.length := by
      intro l1 ds1 rem1 h1
      unfold tryDigits at h1
      split at h1
      · rename_i c0 rest0 hd0
        simp at h1
        obtain ⟨-, -, -, hr⟩ := h1
        have hlen : (l1.dropWhile Char.isDigit).length ≤ l1.length :=
          (List.dropWhile_sublist (l := l1) (p := Char.isDigit)).length_le
        rw [hd0] at hlen
        simp only [List.length_cons] at hlen
        rw [← hr]
        omega
      · simp at h1
    simp only [List.length_cons]
    cases rest with
    | nil => simp [tryMention] at h
    | cons c2 tl =>
      simp only [tryMention] at h
      split at h
      · split at h
        · have h3 := hd _ _ _ h
          have h4 : tl.tail.length = tl.length - 1 := List.length_tail tl
          simp only [List.length_cons]
          omega
        · have h3 := hd _ _ _ h
          simp only [List.length_cons]
          omega
      · simp at h
  · simp
  · simp

/-- A Python value that is either a string (a matched id) or the int 0 —
the union-typed result of `get_user_id_from_mention`. -/
inductive MentionResult where
  | idString (s : List Char) : MentionResult
  | intZero : MentionResult
deriving DecidableEq

/-- `utils.get_user_id_from_mention(mention)`: the single regex capture if
`re.findall` found exactly one match, else the integer 0. -/
def get_user_id_from_mention (mention : List Char) : MentionResult :=
  match findMentions mention with
  | [ds] => .idString ds
  | _ => .intZero

/-- The digits captured by a match of `<@!?([0-9]+)>` anchored exactly at the
start of `l`, if any. -/
def mentionParse (l : List Char) : Option (List Char) :=
  match l with
  | c :: rest => if c = '<' then (tryMention rest).map (fun p => p.1) else none
  | [] => none

/-- Specification-side occurrence list for the mention pattern: the captured
digits at every position of the token where `<@DIGITS>`/`<@!DIGITS>` matches.
Defined by positions, independently of `findMentions`'s resume-after-match
scan; no `<` occurs inside a match, so matches cannot overlap and the two
notions of occurrence coincide (proved below). -/
def specMentions (tok : List Char) : List (List Char) :=
  (List.range tok.length).filterMap (fun i => mentionParse (tok.drop i))

/-! ## Command dispatch core (`src/commands_core.py`)

Permission levels and channel-type bitmasks are modelled as `Nat` (the code
only compares them with `<` and intersects them with `&`); user/server/role
identifiers, tournament-service accounts and tournament-state tokens are
likewise opaque `Nat`s; a raised runtime exception is an opaque `Nat`
payload. -/

/-- The `ChallongeAccess` enum imported from the account boundary. -/
inductive ChallongeAccess where
  | notRequired
  | requiredForAuthor
  | requiredForHost
deriving DecidableEq

/-- The four error kinds the tournament-account boundary
(`challonge_accounts.get`) can report: `UserNotFound`, `UserNameNotSet`,
`APIKeyNotSet`, `InvalidCredentials`. -/
inductive AccountError where
  | userNotFound
  | userNameNotSet
  | apiKeyNotSet
  | invalidCredentials
deriving DecidableEq

/-- The error values validation can report: the four exception classes
defined in `commands_core.py` plus an account-boundary error passed through
unchanged. -/
inductive VError where
  | missingParameters (req given : Nat)
  | wrongChannel
  | insufficientPrivileges
  | badTournamentState
  | accountError (e : AccountError)
deriving DecidableEq

/-- `Attributes`: declarative preconditions attached to a command at
registration. -/
structure Attributes where
  minPermissions : Nat
  channelRestrictions : Nat
  challongeAccess : ChallongeAccess
  tournamentState : Option Nat
deriving DecidableEq

/-- A Python callback function object, reduced to the metadata the dispatch
core reads: its `__name__` and `__doc__`. -/
structure Callback where
  name : List Char
  doc : Option (List Char)
deriving DecidableEq

/-- `Command`: name, (wrapped) callback, attributes, and the four builder
lists, which `__init__` sets to empty. -/
structure Command where
  name : List Char
  cb : Callback
  attributes : Attributes
  aliases : List (List Char) := []
  reqParams : List (List Char) := []
  optParams : List (List Char) := []
  helpers : List (List Char) := []
deriving DecidableEq

/-- A platform channel: only the fields the dispatch core reads. -/
structure Channel where
  id : Nat
  is_private : Bool
deriving DecidableEq

/-- A platform user (message author). -/
structure User where
  id : Nat
deriving DecidableEq

/-- An incoming platform message: content, author, channel, owning server id,
and the ids of the mentioned users. -/
structure Message where
  content : List Char
  author : User
  channel : Channel
  server : Nat
  mentions : List Nat
deriving DecidableEq

/-- The bot client; only its own user identity is read. -/
structure Client where
  user : Nat
deriving DecidableEq

/-- The persistence layer's tournament record for a channel. -/
structure Tournament where
  host_id : Nat
  challonge_id : Nat
  role_id : Nat
  channel_id : Nat

/-- The persistence layer's server configuration record. -/
structure DBServer where
  trigger : List Char

/-- The external boundary collaborators `commands_core.py` calls:
`get_permissions`, `get_channel_type`, `challonge_accounts.get` (returning an
`(account, error)` pair), `validate_tournament_state` (which may raise),
`db.get_tournament` and `db.get_server`. -/
structure Env where
  get_permissions : User → Channel → Nat
  get_channel_type : Channel → Nat
  get_account : Nat → Option Nat × Option AccountError
  validate_tournament_state : Nat → Nat → Nat → Except Nat Bool
  get_tournament : Channel → Tournament
  get_server : Nat → DBServer

/-- `Command.add_required_params(*args)`: assigns (not appends) and returns
the command. -/
def Command.add_required_params (c : Command) (args : List (List Char)) : Command :=
  { c with reqParams := args }

/-- `Command.add_optional_params(*args)`: assigns and returns the command. -/
def Command.add_optional_params (c : Command) (args : List (List Char)) : Command :=
  { c with optParams := args }

/-- `Command.add_aliases(*args)`: assigns and returns the command. -/
def Command.add_aliases (c : Command) (args : List (List Char)) : Command :=
  { c with aliases := args }

/-- `Command.add_helpers(*args)`: assigns and returns the command. -/
def Command.add_helpers (c : Command) (args : List (List Char)) : Command :=
  { c with helpers := args }

/-- `Command.validate_name(name)`: true if the name equals the command's own
name; otherwise membership in `aliases` (the source's `elif self.aliases is
not None` guard always holds, `aliases` being a list). -/
def Command.validate_name (c : Command) (name : List Char) : Bool :=
  if c.name = name then true else c.aliases.contains name

/-- The tournament-account portion of `Command.validate_context` (the
`challongeAccess` branches): `some err` models an early `return False, err`;
`none` falls through to the argument-count check; `Except.error` models the
un-caught exception a `validate_tournament_state` call can raise. -/
def challongeCheck (c : Command) (env : Env) (message : Message) :
    Except Nat (Option VError) :=
  match c.attributes.challongeAccess with
  | .notRequired => .ok none
  | .requiredForAuthor =>
    match (env.get_account message.author.id).2 with
    | some exc => .ok (some (.accountError exc))
    | none => .ok none
  | .requiredForHost =>
    let db_t := env.get_tournament message.channel
    match env.get_account db_t.host_id with
    | (_, some exc) => .ok (some (.accountError exc))
    | (acc, none) =>
      match acc, c.attributes.tournamentState with
      | some a, some ts =>
        match env.validate_tournament_state a db_t.challonge_id ts with
        | .error e => .error e
        | .ok b => if b then .ok none else .ok (some .badTournamentState)
      | _, _ => .ok none

/-- `Command.validate_context(client, message, postCommand)`: permission,
channel type (bitwise intersection), tournament account/state, then argument
count, short-circuiting on the first failure; `Except.error` models an
exception escaping the call. -/
def Command.validate_context (c : Command) (env : Env) (client : Client)
    (message : Message) (postCommand : List (List Char)) :
    Except Nat (Bool × Option VError) :=
  if env.get_permissions message.author message.channel < c.attributes.minPermissions then
    .ok (false, some .insufficientPrivileges)
  else if Nat.land (env.get_channel_type message.channel) c.attributes.channelRestrictions = 0 then
    .ok (false, some .wrongChannel)
  else
    match challongeCheck c env message with
    | .error e => .error e
    | .ok (some exc) => .ok (false, some exc)
    | .ok none =>
      if postCommand.length < c.reqParams.length then
        .ok (false, some (.missingParameters c.reqParams.length postCommand.length))
      else
        .ok (true, none)

/-- Assignment `kwargs[k] = v` on a Python dict modelled as an
insertion-ordered association list: overwrite in place when the key exists,
append otherwise. -/
def dictSet (d : List (List Char × List Char)) (k v : List Char) :
    List (List Char × List Char) :=
  if d.any (fun p => p.1 == k) then
    d.map (fun p => if p.1 == k then (k, v) else p)
  else d ++ [(k, v)]

/-- The first loop of `Command._fetch_args`: bind each required parameter
name, in order, to `postCommand[count]`; an out-of-range index is Python's
uncaught `IndexError`, modelled as `none`. -/
def fetchReq (d : List (List Char × List Char))
    (params postCommand : List (List Char)) (count : Nat) :
    Option (List (List Char × List Char)) :=
  match params with
  | [] => some d
  | x :: rest =>
    match postCommand.get? count with
    | none => none
    | some v => fetchReq (dictSet d x v) rest postCommand (count + 1)

/-- The second loop of `Command._fetch_args`: bind each optional parameter
name to `postCommand[count + offset]` when that index is in range, else skip
it (the loop itself always continues). -/
def fetchOpt (d : List (List Char × List Char))
    (params postCommand : List (List Char)) (count offset : Nat) :
    List (List Char × List Char) :=
  match params with
  | [] => d
  | x :: rest =>
    match postCommand.get? (count + offset) with
    | some v => fetchOpt (dictSet d x v) rest postCommand (count + 1) offset
    | none => fetchOpt d rest postCommand (count + 1) offset

/-- `Command._fetch_args(postCommand)`: required bindings then optional
bindings into one kwargs dict (offset = number of required parameters). -/
def Command.fetch_args (c : Command) (postCommand : List (List Char)) :
    Option (List (List Char × List Char)) :=
  match fetchReq [] c.reqParams postCommand 0 with
  | none => none
  | some d => some (fetchOpt d c.optParams postCommand 0 c.reqParams.length)

/-- Python `sep.join(strings)`. -/
def joinSep (sep : List Char) : List (List Char) → List Char
  | [] => []
  | [x] => x
  | x :: y :: rest => x ++ sep ++ joinSep sep (y :: rest)

/-- `Command.simple_print()` — the "short description": the format template
is a backtick-quoted name, a space, the `[req]` group, the `\x7bopt\x7d`
group (no separator between the groups), then a double-dash and the first
line of the callback's doc in asterisks, or "No description available" when
the doc is Python `None`.  When the doc is present, Python evaluates
`self.cb.__doc__.splitlines()[0]`, which raises `IndexError` on an empty doc
string (`splitlines` of `""` is `[]`) — modelled as `none`. -/
def Command.simple_print (c : Command) : Option (List Char) :=
  let reqPart : List Char :=
    if c.reqParams.length = 0 then []
    else joinSep (lit " ") (c.reqParams.map (fun p => lit "[" ++ p ++ lit "]"))
  let optPart : List Char :=
    if c.optParams.length = 0 then []
    else joinSep (lit " ") (c.optParams.map (fun p => lit "\x7b" ++ p ++ lit "\x7d"))
  let descr : Option (List Char) :=
    match c.cb.doc with
    | none => some (lit "No description available")
    | some d =>
      match splitlinesPlain d with
      | [] => none
      | l :: _ => some l
  match descr with
  | none => none
  | some ds =>
    some (lit "\x60" ++ c.name ++ lit "\x60 " ++ reqPart ++ optPart ++
          lit " -- *" ++ ds ++ lit "*")

/-- `Command.pretty_print()`: the short description plus a fenced block with
the full doc (empty when `None`) directly followed by the alias line. -/
def Command.pretty_print (c : Command) : Option (List Char) :=
  match c.simple_print with
  | none => none
  | some sp =>
    let docPart : List Char := match c.cb.doc with | none => [] | some d => d
    let aliasPart : List Char :=
      if c.aliases.length = 0 then lit "No aliases"
      else lit "Aliases: " ++ joinSep (lit " / ") c.aliases
    some (sp ++ lit "\n\x60\x60\x60" ++ docPart ++ aliasPart ++ lit "\x60\x60\x60")

/-- `CommandsHandler`: the registry, an insertion-ordered list. -/
structure CommandsHandler where
  _commands : List Command
deriving DecidableEq

/-- `CommandsHandler.find(name)`: linear scan, first command whose
`validate_name` accepts the name; `None` when there is none. -/
def CommandsHandler.find (h : CommandsHandler) (name : List Char) : Option Command :=
  h._commands.find? (fun c => c.validate_name name)

/-- `CommandsHandler.register(**attributes)` applied to callback `func`:
a profiling wrapper around `func` is built, `wrapper.__doc__ = func.__doc__`
is copied onto it, and `Command(func.__name__, wrapper, Attributes(...))` is
appended to the registry (`_add` returns the command).  Only the wrapper's
metadata is modelled: the profiling scope and the delegated call have no
effect on any claim. -/
def CommandsHandler.register (h : CommandsHandler) (attrs : Attributes)
    (func : Callback) : CommandsHandler × Command :=
  let wrapper : Callback := { name := lit "wrapper", doc := func.doc }
  let c : Command := { name := func.name, cb := wrapper, attributes := attrs }
  ({ _commands := h._commands ++ [c] }, c)

/-- `CommandsHandler._get_command_and_postcommand(client, message)`:
whitespace-tokenize; in a private channel token 0 names the command and
tokens from index 1 are the arguments; otherwise, with at least two tokens,
token 0 must equal the server's trigger or the bot must be mentioned, and
token 1 names the command with arguments from index 2; an unresolved name
yields no command. -/
def CommandsHandler.get_command_and_postcommand (h : CommandsHandler) (env : Env)
    (client : Client) (message : Message) : Option (Command × List (List Char)) :=
  let split := pySplit message.content
  if split.length = 0 then none
  else if message.channel.is_private then
    match h.find (split.headD []) with
    | some command => some (command, split.drop 1)
    | none => none
  else
    let commandTrigger := (env.get_server message.server).trigger
    if split.length ≤ 1 then none
    else if split.headD [] = commandTrigger || message.mentions.contains client.user then
      match h.find (split.getD 1 []) with
      | some command => some (command, split.drop 2)
      | none => none
    else none

/-- The observable effects of one `CommandsHandler.try_execute` call: the
console log entry for an escaped validation exception (message content and
error), the error value sent to the originating channel, whether the
command's callback ran, and whether the success log line was printed. -/
structure TryExecuteResult where
  loggedException : Option (List Char × Nat)
  sentMessage : Option VError
  executed : Bool
  loggedSuccess : Bool
deriving DecidableEq

/-- `CommandsHandler.try_execute(client, message)`: recognize, validate
inside `try`, send the failure value if any, execute and log on success. -/
def CommandsHandler.try_execute (h : CommandsHandler) (env : Env) (client : Client)
    (message : Message) : TryExecuteResult :=
  match h.get_command_and_postcommand env client message with
  | none =>
    { loggedException := none, sentMessage := none,
      executed := false, loggedSuccess := false }
  | some (command, postCommand) =>
    match command.validate_context env client message postCommand with
    | .error e =>
      { loggedException := some (message.content, e), sentMessage := none,
        executed := false, loggedSuccess := false }
    | .ok (validated, exc) =>
      match exc with
      | some e =>
        { loggedException := none, sentMessage := some e,
          executed := false, loggedSuccess := false }
      | none =>
        if validated then
          { loggedException := none, sentMessage := none,
            executed := true, loggedSuccess := true }
        else
          { loggedException := none, sentMessage := none,
            executed := false, loggedSuccess := false }

/-- The exceptions that can escape `AuthorizedCommandsWrapper.__anext__`:
one raised by `validate_context` (not caught there), or the `IndexError`
from `simple_print` on an empty doc string. -/
inductive IterErr where
  | validateRaised (e : Nat)
  | printRaised
deriving DecidableEq

/-- Python `isinstance(exc, MissingParameters)` on the optional error. -/
def isMissingParameters : Option VError → Bool
  | some (.missingParameters _ _) => true
  | _ => false

/-- Driving `AuthorizedCommandsWrapper.__anext__` to `StopAsyncIteration`
over the remaining registry slice: each command is validated with an empty
argument list; a command that validates, or fails precisely with
`MissingParameters`, yields its `simple_print`; any other failure recurses to
the next command; an escaping exception aborts the whole iteration. -/
def authorizedAll (env : Env) (client : Client) (message : Message) :
    List Command → Except IterErr (List (List Char))
  | [] => .ok []
  | command :: rest =>
    match command.validate_context env client message [] with
    | .error e => .error (.validateRaised e)
    | .ok (validated, exc) =>
      if validated || isMissingParameters exc then
        match command.simple_print with
        | none => .error .printRaised
        | some s =>
          match authorizedAll env client message rest with
          | .error e => .error e
          | .ok l => .ok (s :: l)
      else authorizedAll env client message rest

/-- The membership test `authorizedAll` applies to one command: validation
(with an empty argument list) returns normally and either passes or fails
with `MissingParameters`. -/
def listedPred (env : Env) (client : Client) (message : Message) (c : Command) : Bool :=
  match c.validate_context env client message [] with
  | .ok (validated, exc) => validated || isMissingParameters exc
  | .error _ => false

/-! ## Theorems -/

theorem splitlinesKE_flatten (s : List Char) : (splitlinesKE s).flatten = s := by
  induction s using splitlinesKE.induct with
  | case1 => simp [splitlinesKE]
  | case2 c rest h ih =>
    obtain ⟨hc, hh⟩ := h
    subst hc
    cases rest with
    | nil => simp at hh
    | cons b tl =>
      simp only [List.head?_cons, Option.some.injEq] at hh
      subst hh
      simp only [List.tail_cons] at ih
      simp [splitlinesKE, ih]
  | case3 c rest h1 h2 ih =>
    rw [splitlinesKE, if_neg h1, if_pos h2]
    simp [ih]
  | case4 c rest h1 h2 hnil ih =>
    have hrest : rest = [] := by rw [← ih, hnil]; simp
    subst hrest
    simp [splitlinesKE, h2]
  | case5 c rest h1 h2 l ls hcons ih =>
    rw [splitlinesKE, if_neg h1, if_neg h2, hcons]
    rw [hcons] at ih
    simp only [List.flatten_cons] at ih ⊢
    rw [← ih]
    simp

theorem splitlinesKE_ne_nil (s : List Char) (h : s ≠ []) : splitlinesKE s ≠ [] := by
  cases s with
  | nil => exact absurd rfl h
  | cons c rest =>
    rw [splitlinesKE]
    split
    · simp
    · split
      · simp
      · split <;> simp

theorem flatten_map_flatten (chunks : List (List (List Char))) :
    (chunks.map List.flatten).flatten = chunks.flatten.flatten := by
  induction chunks with
  | nil => rfl
  | cons x xs ih => simp [ih]

theorem pagLoop_chunks (dump : List Char) (maxPerPage : Nat) :
    ∀ (lines cur : List (List Char)) (pageIndex : Nat),
      lines ≠ [] →
      dump.drop pageIndex = cur.flatten ++ lines.flatten →
      ∃ chunks : List (List (List Char)),
        pagLoop dump maxPerPage lines pageIndex cur.flatten.length =
          chunks.map List.flatten ∧
        chunks.flatten = cur ++ lines := by
  intro lines
  induction lines with
  | nil => intro cur pageIndex hne _; exact absurd rfl hne
  | cons line rest ih =>
    intro cur pageIndex _ hinv
    cases rest with
    | nil =>
      refine ⟨[cur ++ [line]], ?_, by simp⟩
      simp [pagLoop, hinv]
    | cons next rest2 =>
      have hdrop2 : dump.drop (pageIndex + cur.flatten.length) =
          line ++ (next :: rest2).flatten := by
        have hcongr := congrArg (List.drop cur.flatten.length) hinv
        rw [List.drop_drop] at hcongr
        rw [hcongr, List.drop_left]
        simp
      by_cases hover : maxPerPage ≤ cur.flatten.length + line.length
      · obtain ⟨chunks, h1, h2⟩ :=
          ih [line] (pageIndex + cur.flatten.length) (by simp) (by simpa using hdrop2)
        refine ⟨cur :: chunks, ?_, by simp [h2]⟩
        simp only [pagLoop]
        rw [if_pos hover]
        have htake : (dump.drop pageIndex).take cur.flatten.length = cur.flatten := by
          rw [hinv]; exact List.take_left _ _
        rw [htake]
        have h1' : pagLoop dump maxPerPage (next :: rest2)
            (pageIndex + cur.flatten.length) line.length = chunks.map List.flatten := by
          simpa using h1
        rw [List.map_cons, h1']
      · obtain ⟨chunks, h1, h2⟩ := ih (cur ++ [line]) pageIndex (by simp)
          (by rw [hinv]; simp)
        refine ⟨chunks, ?_, by simpa using h2⟩
        simp only [pagLoop]
        rw [if_neg hover]
        simpa using h1

/-- C7: for every text and positive page limit, concatenating the pages of
`paginate` in order reproduces the text exactly, and the page list arises by
flattening a partition of the keepends line split into consecutive runs —
so every page boundary falls on a line boundary of the input. -/
theorem paginate_pages (text : List Char) (maxPerPage : Nat)
    (hpos : 0 < maxPerPage) :
    (paginate text maxPerPage).flatten = text ∧
    ∃ chunks : List (List (List Char)),
      chunks.flatten = splitlinesKE text ∧
      paginate text maxPerPage = chunks.map List.flatten := by
  unfold paginate
  by_cases hlt : text.length < maxPerPage
  · rw [if_pos hlt]
    exact ⟨by simp, [splitlinesKE text], by simp, by simp [splitlinesKE_flatten]⟩
  · rw [if_neg hlt]
    have htne : text ≠ [] := by
      intro he
      subst he
      simp at hlt
      omega
    have hlne : splitlinesKE text ≠ [] := splitlinesKE_ne_nil text htne
    have hinv : text.drop 0 =
        ([] : List (List Char)).flatten ++ (splitlinesKE text).flatten := by
      simp [splitlinesKE_flatten]
    obtain ⟨chunks, h1, h2⟩ :=
      pagLoop_chunks text maxPerPage (splitlinesKE text) [] 0 hlne hinv
    have h1' : pagLoop text maxPerPage (splitlinesKE text) 0 0 =
        chunks.map List.flatten := by simpa using h1
    refine ⟨?_, chunks, by simpa using h2, h1'⟩
    rw [h1', flatten_map_flatten]
    have h2' : chunks.flatten = splitlinesKE text := by simpa using h2
    rw [h2', splitlinesKE_flatten]

/-- Witness for `paginate_pages` at the spec's concrete example
(`"abcde\nfghij\nklmno\n"`, limit 10). -/
theorem paginate_pages_witness :
    0 < 10 ∧
    ((paginate (lit "abcde\nfghij\nklmno\n") 10).flatten =
        lit "abcde\nfghij\nklmno\n" ∧
     ∃ chunks : List (List (List Char)),
       chunks.flatten = splitlinesKE (lit "abcde\nfghij\nklmno\n") ∧
       paginate (lit "abcde\nfghij\nklmno\n") 10 = chunks.map List.flatten) :=
  ⟨by decide, paginate_pages (lit "abcde\nfghij\nklmno\n") 10 (by decide)⟩

theorem tryDigits_eq (l ds rem : List Char) (h : tryDigits l = some (ds, rem)) :
    ds ≠ [] ∧ (∀ c ∈ ds, c.isDigit) ∧ l = ds ++ '>' :: rem := by
  unfold tryDigits at h
  split at h
  · rename_i c0 rest0 hd
    simp at h
    obtain ⟨hne, hc0, hds, hrem⟩ := h
    subst hc0
    subst hds
    subst hrem
    refine ⟨?_, fun x hx => List.mem_takeWhile_imp hx, ?_⟩
    · cases l with
      | nil => simp at hne
      | cons a l2 =>
        obtain ⟨hlt, ha⟩ := hne
        simp only [List.getElem_cons_zero] at ha
        simp [List.takeWhile_cons, ha]
    · conv_lhs => rw [← List.takeWhile_append_dropWhile (p := Char.isDigit) (l := l)]
      rw [hd]
  · simp at h

theorem digit_ne_lt {c : Char} (h : c.isDigit = true) : c ≠ '<' := by
  intro he
  subst he
  simp [Char.isDigit] at h

theorem tryMention_shape (l ds rem : List Char) (h : tryMention l = some (ds, rem)) :
    ∃ t, l = t ++ rem ∧ ds.length + 2 ≤ t.length ∧ (∀ c ∈ t, c ≠ '<') := by
  cases l with
  | nil => simp [tryMention] at h
  | cons c rest =>
    simp only [tryMention] at h
    by_cases hc : c = '@'
    · subst hc
      rw [if_pos rfl] at h
      by_cases hb : rest.head? = some '!'
      · rw [if_pos hb] at h
        cases rest with
        | nil => simp at hb
        | cons b tl =>
          simp only [List.head?_cons, Option.some.injEq] at hb
          subst hb
          simp only [List.tail_cons] at h
          obtain ⟨hne, hdig, heq⟩ := tryDigits_eq tl ds rem h
          refine ⟨'@' :: '!' :: (ds ++ ['>']), by simp [heq], by simp, ?_⟩
          refine List.forall_mem_cons.2 ⟨by decide, ?_⟩
          refine List.forall_mem_cons.2 ⟨by decide, ?_⟩
          refine List.forall_mem_append.2 ⟨fun x hx => digit_ne_lt (hdig x hx), ?_⟩
          intro x hx
          simp only [List.mem_singleton] at hx
          subst hx
          decide
      · rw [if_neg hb] at h
        obtain ⟨hne, hdig, heq⟩ := tryDigits_eq rest ds rem h
        refine ⟨'@' :: (ds ++ ['>']), by simp [heq], by simp, ?_⟩
        refine List.forall_mem_cons.2 ⟨by decide, ?_⟩
        refine List.forall_mem_append.2 ⟨fun x hx => digit_ne_lt (hdig x hx), ?_⟩
        intro x hx
        simp only [List.mem_singleton] at hx
        subst hx
        decide
    · rw [if_neg hc] at h
      simp at h

theorem specMentions_nil : specMentions [] = [] := by
  simp [specMentions]

theorem specMentions_cons (c : Char) (rest : List Char) :
    specMentions (c :: rest) =
      (mentionParse (c :: rest)).toList ++ specMentions rest := by
  unfold specMentions
  rw [List.length_cons, List.range_succ_eq_map, List.filterMap_cons, List.filterMap_map]
  have hfun : ((fun i => mentionParse ((c :: rest).drop i)) ∘ Nat.succ) =
      (fun i => mentionParse (rest.drop i)) := by
    funext i
    simp
  rw [hfun]
  simp only [List.drop_zero]
  cases hm : mentionParse (c :: rest) with
  | none => simp [hm]
  | some ds => simp [hm]

theorem specMentions_append_of_no_open (t rem : List Char)
    (h : ∀ c ∈ t, c ≠ '<') : specMentions (t ++ rem) = specMentions rem := by
  induction t with
  | nil => simp
  | cons a t2 ih =>
    have ha : a ≠ '<' := h a (List.mem_cons_self a t2)
    rw [List.cons_append, specMentions_cons]
    have hmp : mentionParse (a :: (t2 ++ rem)) = none := by
      simp [mentionParse, ha]
    rw [hmp]
    simpa using ih (fun c hc => h c (List.mem_cons_of_mem a hc))

theorem findMentions_eq_specMentions (l : List Char) :
    findMentions l = specMentions l := by
  induction l using findMentions.induct with
  | case1 => simp [findMentions, specMentions_nil]
  | case2 rest ds rem h ih =>
    rw [findMentions]
    rw [if_pos rfl, h]
    rw [specMentions_cons]
    have hmp : mentionParse ('<' :: rest) = some ds := by
      simp [mentionParse, h]
    rw [hmp]
    obtain ⟨t, heq, hlen, hnolt⟩ := tryMention_shape rest ds rem h
    rw [heq, specMentions_append_of_no_open t rem hnolt]
    simp [ih]
  | case3 rest h ih =>
    rw [findMentions, if_pos rfl, h, specMentions_cons]
    have hmp : mentionParse ('<' :: rest) = none := by
      simp [mentionParse, h]
    rw [hmp]
    simpa using ih
  | case4 c rest hc ih =>
    rw [findMentions, if_neg hc, specMentions_cons]
    have hmp : mentionParse (c :: rest) = none := by
      simp [mentionParse, hc]
    rw [hmp]
    simpa using ih

/-- C8: `get_user_id_from_mention` returns the captured digit string exactly
when the token contains exactly one occurrence of `<@DIGITS>`/`<@!DIGITS>`
(`specMentions` counts occurrences by position, independently of the scan),
and the integer 0 when it contains zero or several; together with the spec's
four concrete examples. -/
theorem get_user_id_from_mention_spec (tok : List Char) :
    (∀ ds, specMentions tok = [ds] →
      get_user_id_from_mention tok = .idString ds) ∧
    ((specMentions tok).length ≠ 1 →
      get_user_id_from_mention tok = .intZero) ∧
    get_user_id_from_mention (lit "<@123456>") = .idString (lit "123456") ∧
    get_user_id_from_mention (lit "<@!123456>") = .idString (lit "123456") ∧
    get_user_id_from_mention (lit "no mention here") = .intZero ∧
    get_user_id_from_mention (lit "<@1> <@2>") = .intZero := by
  refine ⟨?_, ?_, ?_, ?_, ?_, ?_⟩
  · intro ds h
    unfold get_user_id_from_mention
    rw [findMentions_eq_specMentions, h]
  · intro h
    unfold get_user_id_from_mention
    rw [findMentions_eq_specMentions]
    match hm : specMentions tok with
    | [] => rfl
    | [a] => rw [hm] at h; simp at h
    | a :: b :: tl => rfl
  · unfold get_user_id_from_mention
    rw [findMentions_eq_specMentions]
    decide
  · unfold get_user_id_from_mention
    rw [findMentions_eq_specMentions]
    decide
  · unfold get_user_id_from_mention
    rw [findMentions_eq_specMentions]
    decide
  · unfold get_user_id_from_mention
    rw [findMentions_eq_specMentions]
    decide

/-- Witness for `get_user_id_from_mention_spec`: its hypotheses discharged at
the concrete tokens `"<@5>"` (one occurrence) and `"xy"` (none). -/
theorem get_user_id_from_mention_spec_witness :
    get_user_id_from_mention (lit "<@5>") = .idString (lit "5") ∧
    get_user_id_from_mention (lit "xy") = .intZero :=
  ⟨(get_user_id_from_mention_spec (lit "<@5>")).1 (lit "5") (by decide),
   (get_user_id_from_mention_spec (lit "xy")).2.1 (by decide)⟩

/-- C9: each builder method replaces its list entirely — after two calls only
the second call's arguments remain — and yields the command it was called on
with every other field unchanged (Python mutates `self` in place and returns
it; the record-update equations are the functional rendering of that). -/
theorem builder_methods_replace (c : Command) (a b : List (List Char)) :
    (c.add_required_params a).add_required_params b = { c with reqParams := b } ∧
    (c.add_optional_params a).add_optional_params b = { c with optParams := b } ∧
    (c.add_aliases a).add_aliases b = { c with aliases := b } ∧
    (c.add_helpers a).add_helpers b = { c with helpers := b } ∧
    c.add_required_params a = { c with reqParams := a } ∧
    c.add_optional_params a = { c with optParams := a } ∧
    c.add_aliases a = { c with aliases := a } ∧
    c.add_helpers a = { c with helpers := a } :=
  ⟨rfl, rfl, rfl, rfl, rfl, rfl, rfl, rfl⟩

set_option maxHeartbeats 1000000 in
theorem splitlinesPlain_ne_nil : ∀ s : List Char, s ≠ [] → splitlinesPlain s ≠ [] := by
  intro s hs
  induction s using splitlinesPlain.induct with
  | case1 => exact absurd rfl hs
  | case2 rest ih =>
    simp only [splitlinesPlain.eq_2]
    simp
  | case3 c rest hx hbrk ih =>
    rw [splitlinesPlain.eq_3 c rest hx, if_pos hbrk]
    simp
  | case4 c rest hx hbrk hnil ih =>
    rw [splitlinesPlain.eq_3 c rest hx, if_neg hbrk, hnil]
    simp
  | case5 c rest hx hbrk l ls hcons ih =>
    rw [splitlinesPlain.eq_3 c rest hx, if_neg hbrk, hcons]
    simp

/-- C10 counterexample: a callback whose documentation is present but is the
empty string.  The registered command's callback metadata does carry that
doc, yet `simple_print` produces no rendering at all (Python raises
`IndexError` evaluating `"".splitlines()[0]`) instead of rendering the doc —
so "simple_print renders the original callback's documentation whenever the
original callback had documentation", read over all present docs, fails
here. -/
theorem register_empty_doc_counterexample :
    (((CommandsHandler.mk []).register ⟨0, 0, .notRequired, none⟩
        ⟨lit "ping", some []⟩).2).cb.doc = some [] ∧
    Command.simple_print
      (((CommandsHandler.mk []).register ⟨0, 0, .notRequired, none⟩
        ⟨lit "ping", some []⟩).2) = none :=
  ⟨rfl, rfl⟩

/-- C10 amended: `register` copies the original callback's doc string onto
the profiling wrapper before the `Command` is constructed, so the registered
command's callback carries the original doc; whenever that doc is present
and nonempty, `simple_print` renders its first line (never the "No
description available" fallback) and `pretty_print` embeds the full doc
text. -/
theorem register_copies_doc (h : CommandsHandler) (attrs : Attributes)
    (func : Callback) (d : List Char) (hdoc : func.doc = some d) (hne : d ≠ []) :
    ((h.register attrs func).2).cb.doc = some d ∧
    ∃ first lrest, splitlinesPlain d = first :: lrest ∧
      ((h.register attrs func).2).simple_print =
        some (lit "\x60" ++ func.name ++ lit "\x60 " ++ lit " -- *" ++
              first ++ lit "*") ∧
      ((h.register attrs func).2).pretty_print =
        some ((lit "\x60" ++ func.name ++ lit "\x60 " ++ lit " -- *" ++
               first ++ lit "*") ++
              lit "\n\x60\x60\x60" ++ d ++ lit "No aliases" ++ lit "\x60\x60\x60") := by
  obtain ⟨first, lrest, hsp⟩ : ∃ f r, splitlinesPlain d = f :: r := by
    cases hsp0 : splitlinesPlain d with
    | nil => exact absurd hsp0 (splitlinesPlain_ne_nil d hne)
    | cons f r => exact ⟨f, r, rfl⟩
  refine ⟨by simp [CommandsHandler.register, hdoc], first, lrest, hsp, ?_, ?_⟩
  · simp [CommandsHandler.register, Command.simple_print, hdoc, hsp, lit]
  · simp [CommandsHandler.register, Command.pretty_print, Command.simple_print,
      hdoc, hsp, lit]

/-- Witness for `register_copies_doc` at a concrete callback with doc
`"Ping!"`. -/
theorem register_copies_doc_witness :
    (((CommandsHandler.mk []).register ⟨0, 0, .notRequired, none⟩
        ⟨lit "ping", some (lit "Ping!")⟩).2).cb.doc = some (lit "Ping!") ∧
    ∃ first lrest, splitlinesPlain (lit "Ping!") = first :: lrest ∧
      (((CommandsHandler.mk []).register ⟨0, 0, .notRequired, none⟩
          ⟨lit "ping", some (lit "Ping!")⟩).2).simple_print =
        some (lit "\x60" ++ lit "ping" ++ lit "\x60 " ++ lit " -- *" ++
              first ++ lit "*") ∧
      (((CommandsHandler.mk []).register ⟨0, 0, .notRequired, none⟩
          ⟨lit "ping", some (lit "Ping!")⟩).2).pretty_print =
        some ((lit "\x60" ++ lit "ping" ++ lit "\x60 " ++ lit " -- *" ++
               first ++ lit "*") ++
              lit "\n\x60\x60\x60" ++ lit "Ping!" ++ lit "No aliases" ++
              lit "\x60\x60\x60") :=
  register_copies_doc (CommandsHandler.mk []) ⟨0, 0, .notRequired, none⟩
    ⟨lit "ping", some (lit "Ping!")⟩ (lit "Ping!") (by decide) (by decide)

/-- C4 counterexample: one registry holding first a command named `"bar"`
whose aliases contain `"foo"`, then a command named `"foo"`. `find("foo")`
returns the earlier-registered aliasing command, not the command whose name
is `"foo"` — the linear scan stops at the first match whichever field
matched, so "a name match wins over an earlier-registered command's alias
match" is false. -/
theorem find_alias_precedence_counterexample :
    (CommandsHandler.mk
      [{ name := lit "bar", cb := ⟨lit "a", none⟩,
         attributes := ⟨0, 0, ChallongeAccess.notRequired, none⟩,
         aliases := [lit "foo"] },
       { name := lit "foo", cb := ⟨lit "b", none⟩,
         attributes := ⟨0, 0, ChallongeAccess.notRequired, none⟩ }]).find
      (lit "foo") =
      some { name := lit "bar", cb := ⟨lit "a", none⟩,
             attributes := ⟨0, 0, ChallongeAccess.notRequired, none⟩,
             aliases := [lit "foo"] } ∧
    (CommandsHandler.mk
      [{ name := lit "bar", cb := ⟨lit "a", none⟩,
         attributes := ⟨0, 0, ChallongeAccess.notRequired, none⟩,
         aliases := [lit "foo"] },
       { name := lit "foo", cb := ⟨lit "b", none⟩,
         attributes := ⟨0, 0, ChallongeAccess.notRequired, none⟩ }]).find
      (lit "foo") ≠
      some { name := lit "foo", cb := ⟨lit "b", none⟩,
             attributes := ⟨0, 0, ChallongeAccess.notRequired, none⟩ } := by
  decide

theorem validate_name_of_mem_aliases (c : Command) (name : List Char)
    (h : name ∈ c.aliases) : c.validate_name name = true := by
  unfold Command.validate_name
  split
  · rfl
  · simpa using h

/-- C4 amended: `find` returns the first command in registration order whose
name or alias list matches, whichever field matched; in particular, when an
earlier-registered command lists `"foo"` among its aliases, `find("foo")`
returns that command even though a later command's name is `"foo"`. -/
theorem find_registration_order (pre mid post : List Command) (cA cB : Command)
    (name : List Char)
    (hpre : ∀ c ∈ pre, c.validate_name name = false)
    (hA : name ∈ cA.aliases)
    (hB : cB.name = name) :
    (CommandsHandler.mk (pre ++ cA :: mid ++ cB :: post)).find name = some cA := by
  unfold CommandsHandler.find
  induction pre with
  | nil =>
    simp [List.find?, validate_name_of_mem_aliases cA name hA]
  | cons p ps ih =>
    have hp : p.validate_name name = false := hpre p (List.mem_cons_self p ps)
    simp only [List.cons_append, List.find?, hp]
    exact ih (fun c hc => hpre c (List.mem_cons_of_mem p hc))

/-- Witness for `find_registration_order`, instantiated at the
counterexample's two-command registry. -/
theorem find_registration_order_witness :
    (CommandsHandler.mk
      ([] ++ { name := lit "bar", cb := ⟨lit "a", none⟩,
               attributes := ⟨0, 0, ChallongeAccess.notRequired, none⟩,
               aliases := [lit "foo"] } ::
        [] ++ { name := lit "foo", cb := ⟨lit "b", none⟩,
                attributes := ⟨0, 0, ChallongeAccess.notRequired, none⟩ } ::
        [])).find (lit "foo") =
      some { name := lit "bar", cb := ⟨lit "a", none⟩,
             attributes := ⟨0, 0, ChallongeAccess.notRequired, none⟩,
             aliases := [lit "foo"] } :=
  find_registration_order [] [] []
    { name := lit "bar", cb := ⟨lit "a", none⟩,
      attributes := ⟨0, 0, ChallongeAccess.notRequired, none⟩,
      aliases := [lit "foo"] }
    { name := lit "foo", cb := ⟨lit "b", none⟩,
      attributes := ⟨0, 0, ChallongeAccess.notRequired, none⟩ }
    (lit "foo") (by intro c hc; cases hc) (by decide) (by decide)

/-- C1: `validate_context` checks permission, then channel type, then the
tournament account (with its state sub-check), then argument count, in that
fixed order, short-circuiting on the first failure; a normal return is either
`(validated=true, no error)` or `(validated=false, some error)`, never a
mixed pair.  "Check X runs only under condition Y" is expressed as: when Y
fails, the result does not depend on the boundary functions that check X
reads (two environments agreeing on everything else give equal results). -/
theorem validate_context_pipeline (c : Command) (env env' : Env)
    (client client' : Client) (message : Message)
    (postCommand : List (List Char)) :
    (∀ res, c.validate_context env client message postCommand = .ok res →
      res = (true, none) ∨ ∃ e, res = (false, some e)) ∧
    (env.get_permissions message.author message.channel < c.attributes.minPermissions →
      c.validate_context env client message postCommand =
        .ok (false, some .insufficientPrivileges)) ∧
    (¬(env.get_permissions message.author message.channel < c.attributes.minPermissions) →
      Nat.land (env.get_channel_type message.channel) c.attributes.channelRestrictions = 0 →
      c.validate_context env client message postCommand =
        .ok (false, some .wrongChannel)) ∧
    (¬(env.get_permissions message.author message.channel < c.attributes.minPermissions) →
      ¬(Nat.land (env.get_channel_type message.channel) c.attributes.channelRestrictions = 0) →
      (∀ e, challongeCheck c env message = .ok (some e) →
        c.validate_context env client message postCommand = .ok (false, some e)) ∧
      (∀ e, challongeCheck c env message = .error e →
        c.validate_context env client message postCommand = .error e) ∧
      (challongeCheck c env message = .ok none →
        (postCommand.length < c.reqParams.length →
          c.validate_context env client message postCommand =
            .ok (false, some (.missingParameters c.reqParams.length postCommand.length))) ∧
        (c.reqParams.length ≤ postCommand.length →
          c.validate_context env client message postCommand = .ok (true, none)))) ∧
    (c.attributes.challongeAccess = .notRequired →
      env.get_permissions = env'.get_permissions →
      env.get_channel_type = env'.get_channel_type →
      c.validate_context env client message postCommand =
        c.validate_context env' client' message postCommand) ∧
    (c.attributes.challongeAccess = .requiredForAuthor →
      env.get_permissions = env'.get_permissions →
      env.get_channel_type = env'.get_channel_type →
      env.get_account = env'.get_account →
      c.validate_context env client message postCommand =
        c.validate_context env' client' message postCommand) ∧
    (c.attributes.challongeAccess = .requiredForHost →
      ((env.get_account (env.get_tournament message.channel).host_id).1 = none ∨
        c.attributes.tournamentState = none) →
      env.get_permissions = env'.get_permissions →
      env.get_channel_type = env'.get_channel_type →
      env.get_account = env'.get_account →
      env.get_tournament = env'.get_tournament →
      c.validate_context env client message postCommand =
        c.validate_context env' client' message postCommand) := by
  refine ⟨?_, ?_, ?_, ?_, ?_, ?_, ?_⟩
  · intro res h
    unfold Command.validate_context at h
    split at h
    · right
      exact ⟨_, (Except.ok.inj h).symm⟩
    · split at h
      · right
        exact ⟨_, (Except.ok.inj h).symm⟩
      · split at h
        · simp at h
        · right
          exact ⟨_, (Except.ok.inj h).symm⟩
        · split at h
          · right
            exact ⟨_, (Except.ok.inj h).symm⟩
          · left
            exact (Except.ok.inj h).symm
  · intro hp
    unfold Command.validate_context
    rw [if_pos hp]
  · intro hp hch
    unfold Command.validate_context
    rw [if_neg hp, if_pos hch]
  · intro hp hch
    refine ⟨?_, ?_, ?_⟩
    · intro e hcc
      unfold Command.validate_context
      rw [if_neg hp, if_neg hch, hcc]
    · intro e hcc
      unfold Command.validate_context
      rw [if_neg hp, if_neg hch, hcc]
    · intro hcc
      constructor
      · intro hlt
        unfold Command.validate_context
        rw [if_neg hp, if_neg hch, hcc, if_pos hlt]
      · intro hge
        unfold Command.validate_context
        rw [if_neg hp, if_neg hch, hcc, if_neg (Nat.not_lt.mpr hge)]
  · intro hacc hperm hchan
    have hcc : challongeCheck c env message = .ok none := by
      simp only [challongeCheck, hacc]
    have hcc' : challongeCheck c env' message = .ok none := by
      simp only [challongeCheck, hacc]
    unfold Command.validate_context
    rw [hperm, hchan, hcc, hcc']
  · intro hacc hperm hchan haccount
    have hcc : challongeCheck c env message = challongeCheck c env' message := by
      simp only [challongeCheck, hacc, haccount]
    unfold Command.validate_context
    rw [hperm, hchan, hcc]
  · intro hacc hskip hperm hchan haccount htour
    have hcc : challongeCheck c env message = challongeCheck c env' message := by
      simp only [challongeCheck, hacc, haccount, htour]
      rcases hskip with hnone | hts
      · rw [haccount, htour] at hnone
        cases hga : env'.get_account (env'.get_tournament message.channel).host_id with
        | mk acc exc =>
          cases exc with
          | some e => rfl
          | none =>
            rw [hga] at hnone
            simp only at hnone
            subst hnone
            rfl
      · rw [hts]
        cases hga : env'.get_account (env'.get_tournament message.channel).host_id with
        | mk acc exc =>
          cases exc with
          | some e => rfl
          | none =>
            cases acc with
            | none => rfl
            | some a => rfl
    unfold Command.validate_context
    rw [hperm, hchan, hcc]

/-- Witness for `validate_context_pipeline`: the permission short-circuit at
a concrete command requiring permission level 1 with a resolver returning
level 0. -/
theorem validate_context_pipeline_witness :
    Command.validate_context
      { name := lit "t", cb := ⟨lit "t", none⟩,
        attributes := ⟨1, 1, ChallongeAccess.notRequired, none⟩ }
      ⟨fun _ _ => 0, fun _ => 1, fun _ => (none, none), fun _ _ _ => .ok true,
       fun _ => ⟨0, 0, 0, 0⟩, fun _ => ⟨[]⟩⟩
      ⟨0⟩ ⟨[], ⟨0⟩, ⟨0, false⟩, 0, []⟩ [] =
      .ok (false, some .insufficientPrivileges) :=
  (validate_context_pipeline
      { name := lit "t", cb := ⟨lit "t", none⟩,
        attributes := ⟨1, 1, ChallongeAccess.notRequired, none⟩ }
      ⟨fun _ _ => 0, fun _ => 1, fun _ => (none, none), fun _ _ _ => .ok true,
       fun _ => ⟨0, 0, 0, 0⟩, fun _ => ⟨[]⟩⟩
      ⟨fun _ _ => 0, fun _ => 1, fun _ => (none, none), fun _ _ _ => .ok true,
       fun _ => ⟨0, 0, 0, 0⟩, fun _ => ⟨[]⟩⟩
      ⟨0⟩ ⟨0⟩ ⟨[], ⟨0⟩, ⟨0, false⟩, 0, []⟩ []).2.1 (by decide)

/-- C2: command recognition.  In a private channel token 0 names the command
and tokens from index 1 are the arguments (no-token messages and unknown
names recognize nothing).  In a non-private channel a message with at most
one token recognizes nothing; with two or more tokens a command is
considered exactly when token 0 equals the server's trigger or the bot's
user id is among the mentioned users, in which case token 1 names the
command and the arguments start at token 2; an unknown name recognizes
nothing. -/
theorem get_command_recognition (h : CommandsHandler) (env : Env)
    (client : Client) (message : Message) :
    (message.channel.is_private = true →
      (pySplit message.content = [] →
        h.get_command_and_postcommand env client message = none) ∧
      (∀ t0 rest, pySplit message.content = t0 :: rest →
        (∀ cmd, h.find t0 = some cmd →
          h.get_command_and_postcommand env client message = some (cmd, rest)) ∧
        (h.find t0 = none →
          h.get_command_and_postcommand env client message = none))) ∧
    (message.channel.is_private = false →
      ((pySplit message.content).length ≤ 1 →
        h.get_command_and_postcommand env client message = none) ∧
      (∀ t0 t1 rest, pySplit message.content = t0 :: t1 :: rest →
        (¬(t0 = (env.get_server message.server).trigger ∨
            client.user ∈ message.mentions) →
          h.get_command_and_postcommand env client message = none) ∧
        ((t0 = (env.get_server message.server).trigger ∨
            client.user ∈ message.mentions) →
          (∀ cmd, h.find t1 = some cmd →
            h.get_command_and_postcommand env client message =
              some (cmd, rest)) ∧
          (h.find t1 = none →
            h.get_command_and_postcommand env client message = none)))) := by
  constructor
  · intro hpriv
    constructor
    · intro hsp
      simp [CommandsHandler.get_command_and_postcommand, hsp]
    · intro t0 rest hsp
      constructor
      · intro cmd hfind
        simp [CommandsHandler.get_command_and_postcommand, hsp, hpriv, hfind]
      · intro hfind
        simp [CommandsHandler.get_command_and_postcommand, hsp, hpriv, hfind]
  · intro hpriv
    constructor
    · intro hle
      cases hsp : pySplit message.content with
      | nil => simp [CommandsHandler.get_command_and_postcommand, hsp]
      | cons a tl =>
        cases tl with
        | nil => simp [CommandsHandler.get_command_and_postcommand, hsp, hpriv]
        | cons b tl2 =>
          rw [hsp] at hle
          simp at hle
    · intro t0 t1 rest hsp
      constructor
      · intro hnot
        have hne : ¬(t0 = (env.get_server message.server).trigger) :=
          fun hx => hnot (Or.inl hx)
        have hmem : ¬(client.user ∈ message.mentions) :=
          fun hx => hnot (Or.inr hx)
        simp [CommandsHandler.get_command_and_postcommand, hsp, hpriv, hne, hmem]
      · intro htrig
        have hor : ¬(t0 = (env.get_server message.server).trigger) →
            client.user ∈ message.mentions := by
          intro hx
          rcases htrig with hy | hy
          · exact absurd hy hx
          · exact hy
        constructor
        · intro cmd hfind
          simp only [CommandsHandler.get_command_and_postcommand, hsp, hpriv]
          simp [hfind]
          exact hor
        · intro hfind
          simp only [CommandsHandler.get_command_and_postcommand, hsp, hpriv]
          simp [hfind]

/-- Witness for `get_command_recognition`: a one-command registry and the
private-channel message `"ping x"`, recognized as command `ping` with
argument list `["x"]`. -/
theorem get_command_recognition_witness :
    (CommandsHandler.mk
      [{ name := lit "ping", cb := ⟨lit "ping", none⟩,
         attributes := ⟨0, 0, ChallongeAccess.notRequired, none⟩ }]).get_command_and_postcommand
      ⟨fun _ _ => 0, fun _ => 1, fun _ => (none, none), fun _ _ _ => .ok true,
       fun _ => ⟨0, 0, 0, 0⟩, fun _ => ⟨[]⟩⟩
      ⟨0⟩
      ⟨lit "ping x", ⟨0⟩, ⟨0, true⟩, 0, []⟩ =
      some ({ name := lit "ping", cb := ⟨lit "ping", none⟩,
              attributes := ⟨0, 0, ChallongeAccess.notRequired, none⟩ },
            [lit "x"]) :=
  (((get_command_recognition
      (CommandsHandler.mk
        [{ name := lit "ping", cb := ⟨lit "ping", none⟩,
           attributes := ⟨0, 0, ChallongeAccess.notRequired, none⟩ }])
      ⟨fun _ _ => 0, fun _ => 1, fun _ => (none, none), fun _ _ _ => .ok true,
       fun _ => ⟨0, 0, 0, 0⟩, fun _ => ⟨[]⟩⟩
      ⟨0⟩
      ⟨lit "ping x", ⟨0⟩, ⟨0, true⟩, 0, []⟩).1 (by decide)).2
    (lit "ping") [lit "x"] (by decide)).1
    { name := lit "ping", cb := ⟨lit "ping", none⟩,
      attributes := ⟨0, 0, ChallongeAccess.notRequired, none⟩ } (by decide)

theorem dictSet_fresh (d : List (List Char × List Char)) (k v : List Char)
    (h : ∀ p ∈ d, p.1 ≠ k) : dictSet d k v = d ++ [(k, v)] := by
  have hany : d.any (fun p => p.1 == k) = false := by
    rw [List.any_eq_false]
    intro p hp
    simpa using h p hp
  simp [dictSet, hany]

theorem fetchReq_zip (postCommand : List (List Char)) :
    ∀ (params : List (List Char)) (d : List (List Char × List Char)) (count : Nat),
      params.Nodup →
      (∀ p ∈ d, p.1 ∉ params) →
      count + params.length ≤ postCommand.length →
      fetchReq d params postCommand count =
        some (d ++ params.zip (postCommand.drop count)) := by
  intro params
  induction params with
  | nil =>
    intro d count _ _ _
    simp [fetchReq]
  | cons x rest ih =>
    intro d count hnd hfresh hlen
    have hcount : count < postCommand.length := by
      simp only [List.length_cons] at hlen
      omega
    have hv : postCommand.get? count = some postCommand[count] := by
      rw [List.get?_eq_getElem?]
      exact List.getElem?_eq_getElem hcount
    simp only [fetchReq]
    simp only [hv]
    have hset : dictSet d x postCommand[count] = d ++ [(x, postCommand[count])] :=
      dictSet_fresh d x _
        (fun p hp he => (hfresh p hp) (he ▸ List.mem_cons_self x rest))
    rw [hset]
    have hfresh2 : ∀ p ∈ d ++ [(x, postCommand[count])], p.1 ∉ rest := by
      intro p hp
      rcases List.mem_append.mp hp with hd | hx
      · exact fun hmem => hfresh p hd (List.mem_cons_of_mem x hmem)
      · simp only [List.mem_singleton] at hx
        subst hx
        simpa using (List.nodup_cons.mp hnd).1
    have hlen2 : (count + 1) + rest.length ≤ postCommand.length := by
      simp only [List.length_cons] at hlen
      omega
    rw [ih _ (count + 1) (List.Nodup.of_cons hnd) hfresh2 hlen2]
    have hdrop : postCommand.drop count =
        postCommand[count] :: postCommand.drop (count + 1) :=
      List.drop_eq_getElem_cons hcount
    rw [hdrop, List.zip_cons_cons]
    simp

theorem fetchOpt_zip (postCommand : List (List Char)) (offset : Nat) :
    ∀ (params : List (List Char)) (d : List (List Char × List Char)) (count : Nat),
      params.Nodup →
      (∀ p ∈ d, p.1 ∉ params) →
      fetchOpt d params postCommand count offset =
        d ++ params.zip (postCommand.drop (count + offset)) := by
  intro params
  induction params with
  | nil =>
    intro d count _ _
    simp [fetchOpt]
  | cons x rest ih =>
    intro d count hnd hfresh
    simp only [fetchOpt]
    by_cases hlt : count + offset < postCommand.length
    · have hv : postCommand.get? (count + offset) = some postCommand[count + offset] := by
        rw [List.get?_eq_getElem?]
        exact List.getElem?_eq_getElem hlt
      simp only [hv]
      have hset : dictSet d x postCommand[count + offset] =
          d ++ [(x, postCommand[count + offset])] :=
        dictSet_fresh d x _
          (fun p hp he => (hfresh p hp) (he ▸ List.mem_cons_self x rest))
      rw [hset]
      have hfresh2 : ∀ p ∈ d ++ [(x, postCommand[count + offset])], p.1 ∉ rest := by
        intro p hp
        rcases List.mem_append.mp hp with hd | hx
        · exact fun hmem => hfresh p hd (List.mem_cons_of_mem x hmem)
        · simp only [List.mem_singleton] at hx
          subst hx
          simpa using (List.nodup_cons.mp hnd).1
      rw [ih _ (count + 1) (List.Nodup.of_cons hnd) hfresh2]
      have hdrop : postCommand.drop (count + offset) =
          postCommand[count + offset] :: postCommand.drop ((count + 1) + offset) := by
        rw [List.drop_eq_getElem_cons hlt]
        have harith : count + offset + 1 = (count + 1) + offset := by omega
        rw [harith]
      rw [hdrop]
      simp
    · have hv : postCommand.get? (count + offset) = none :=
        List.get?_eq_none.mpr (by omega)
      simp only [hv]
      have h1 : postCommand.drop (count + offset) = [] :=
        List.drop_eq_nil_of_le (by omega)
      have h2 : postCommand.drop ((count + 1) + offset) = [] :=
        List.drop_eq_nil_of_le (by omega)
      rw [ih d (count + 1) (List.Nodup.of_cons hnd)
        (fun p hp hm => hfresh p hp (List.mem_cons_of_mem x hm))]
      rw [h1, h2]
      simp

theorem challongeCheck_no_missing (c : Command) (env : Env) (message : Message)
    (e : VError) (h : challongeCheck c env message = .ok (some e)) :
    ∀ r g, e ≠ .missingParameters r g := by
  intro r g
  simp only [challongeCheck] at h
  split at h
  · simp at h
  · split at h
    · rename_i exc heq
      have he : VError.accountError exc = e := by simpa using h
      rw [← he]
      simp
    · simp at h
  · split at h
    · rename_i acc exc heq
      have he : VError.accountError exc = e := by simpa using h
      rw [← he]
      simp
    · split at h
      · split at h
        · simp at h
        · split at h
          · simp at h
          · have he : VError.badTournamentState = e := by simpa using h
            rw [← he]
            simp
      · simp at h

/-- C3: with the earlier checks passing, fewer post-command tokens than
required parameters fails with `MissingParameters(required, given)` and at
least that many passes; whatever the environment, with enough tokens
validation never reports a `MissingParameters` failure; and argument
extraction (for distinct parameter names) binds required then optional
parameter names in declared order to tokens `0,1,2,...`, omits optional
parameters beyond the supplied tokens (`zip` truncates), and ignores tokens
beyond required+optional. -/
theorem missing_parameters_and_extraction (c : Command) (env : Env)
    (client : Client) (message : Message) (tokens : List (List Char)) :
    (¬(env.get_permissions message.author message.channel < c.attributes.minPermissions) →
     ¬(Nat.land (env.get_channel_type message.channel) c.attributes.channelRestrictions = 0) →
     challongeCheck c env message = .ok none →
      (tokens.length < c.reqParams.length →
        c.validate_context env client message tokens =
          .ok (false, some (.missingParameters c.reqParams.length tokens.length))) ∧
      (c.reqParams.length ≤ tokens.length →
        c.validate_context env client message tokens = .ok (true, none))) ∧
    (c.reqParams.length ≤ tokens.length →
      ∀ r g, c.validate_context env client message tokens ≠
        .ok (false, some (.missingParameters r g))) ∧
    ((c.reqParams ++ c.optParams).Nodup →
     c.reqParams.length ≤ tokens.length →
      c.fetch_args tokens =
        some (c.reqParams.zip tokens ++
              c.optParams.zip (tokens.drop c.reqParams.length))) := by
  refine ⟨?_, ?_, ?_⟩
  · intro hp hch hcc
    constructor
    · intro hlt
      unfold Command.validate_context
      rw [if_neg hp, if_neg hch, hcc, if_pos hlt]
    · intro hge
      unfold Command.validate_context
      rw [if_neg hp, if_neg hch, hcc, if_neg (Nat.not_lt.mpr hge)]
  · intro hge r g hcontra
    unfold Command.validate_context at hcontra
    split at hcontra
    · simp at hcontra
    · split at hcontra
      · simp at hcontra
      · split at hcontra
        · simp at hcontra
        · rename_i e hcc
          have hne := challongeCheck_no_missing c env message e hcc r g
          simp at hcontra
          exact hne hcontra
        · split at hcontra
          · rename_i hlt
            omega
          · simp at hcontra
  · intro hnd hge
    obtain ⟨hnd1, hnd2, hdisj⟩ := List.nodup_append.mp hnd
    have hreq := fetchReq_zip tokens c.reqParams [] 0 hnd1 (by simp)
      (by simpa using hge)
    simp only [Command.fetch_args, hreq]
    have hfresh : ∀ p ∈ c.reqParams.zip tokens, p.1 ∉ c.optParams := by
      intro p hp
      have hmem : p.1 ∈ c.reqParams := by
        obtain ⟨a, b⟩ := p
        exact (List.of_mem_zip hp).1
      exact fun hopt => hdisj hmem hopt
    have hopt := fetchOpt_zip tokens c.reqParams.length c.optParams
      (c.reqParams.zip tokens) 0 hnd2 hfresh
    simp only [List.nil_append, List.drop_zero]
    rw [show (0 + c.reqParams.length) = c.reqParams.length from by omega] at hopt
    rw [hopt]

/-- Witness for `missing_parameters_and_extraction` at a command with
`reqParams = [a, b]`, `optParams = [c]`: one token yields
`MissingParameters(2,1)`; four tokens bind `a,b,c` to tokens `0,1,2` and
ignore token 3. -/
theorem missing_parameters_and_extraction_witness :
    Command.validate_context
      { name := lit "t", cb := ⟨lit "t", none⟩,
        attributes := ⟨0, 1, ChallongeAccess.notRequired, none⟩,
        reqParams := [lit "a", lit "b"], optParams := [lit "c"] }
      ⟨fun _ _ => 0, fun _ => 1, fun _ => (none, none), fun _ _ _ => .ok true,
       fun _ => ⟨0, 0, 0, 0⟩, fun _ => ⟨[]⟩⟩
      ⟨0⟩ ⟨[], ⟨0⟩, ⟨0, false⟩, 0, []⟩ [lit "t1"] =
      .ok (false, some (.missingParameters 2 1)) ∧
    Command.fetch_args
      { name := lit "t", cb := ⟨lit "t", none⟩,
        attributes := ⟨0, 1, ChallongeAccess.notRequired, none⟩,
        reqParams := [lit "a", lit "b"], optParams := [lit "c"] }
      [lit "t1", lit "t2", lit "t3", lit "t4"] =
      some [(lit "a", lit "t1"), (lit "b", lit "t2"), (lit "c", lit "t3")] :=
  ⟨((missing_parameters_and_extraction
      { name := lit "t", cb := ⟨lit "t", none⟩,
        attributes := ⟨0, 1, ChallongeAccess.notRequired, none⟩,
        reqParams := [lit "a", lit "b"], optParams := [lit "c"] }
      ⟨fun _ _ => 0, fun _ => 1, fun _ => (none, none), fun _ _ _ => .ok true,
       fun _ => ⟨0, 0, 0, 0⟩, fun _ => ⟨[]⟩⟩
      ⟨0⟩ ⟨[], ⟨0⟩, ⟨0, false⟩, 0, []⟩ [lit "t1"]).1
      (by decide) (by decide) (by rfl)).1 (by decide),
   (missing_parameters_and_extraction
      { name := lit "t", cb := ⟨lit "t", none⟩,
        attributes := ⟨0, 1, ChallongeAccess.notRequired, none⟩,
        reqParams := [lit "a", lit "b"], optParams := [lit "c"] }
      ⟨fun _ _ => 0, fun _ => 1, fun _ => (none, none), fun _ _ _ => .ok true,
       fun _ => ⟨0, 0, 0, 0⟩, fun _ => ⟨[]⟩⟩
      ⟨0⟩ ⟨[], ⟨0⟩, ⟨0, false⟩, 0, []⟩
      [lit "t1", lit "t2", lit "t3", lit "t4"]).2.2
      (by decide) (by decide)⟩

/-- C5: for every recognized command, an exception escaping
`validate_context` is caught and logged with the message content and the
error, no chat message is sent and nothing executes; a returned failure
value is sent to the originating channel and the command does not execute;
and the callback runs exactly when validation returned `(true, none)`. -/
theorem try_execute_spec (h : CommandsHandler) (env : Env) (client : Client)
    (message : Message) (cmd : Command) (postCommand : List (List Char))
    (hrec : h.get_command_and_postcommand env client message =
      some (cmd, postCommand)) :
    (∀ e, cmd.validate_context env client message postCommand = .error e →
      h.try_execute env client message =
        { loggedException := some (message.content, e), sentMessage := none,
          executed := false, loggedSuccess := false }) ∧
    (∀ v e, cmd.validate_context env client message postCommand = .ok (v, some e) →
      h.try_execute env client message =
        { loggedException := none, sentMessage := some e,
          executed := false, loggedSuccess := false }) ∧
    ((h.try_execute env client message).executed = true ↔
      cmd.validate_context env client message postCommand = .ok (true, none)) := by
  refine ⟨?_, ?_, ?_, ?_⟩
  · intro e hval
    simp [CommandsHandler.try_execute, hrec, hval]
  · intro v e hval
    simp [CommandsHandler.try_execute, hrec, hval]
  · intro hexec
    cases hval : cmd.validate_context env client message postCommand with
    | error e =>
      simp [CommandsHandler.try_execute, hrec, hval] at hexec
    | ok p =>
      obtain ⟨v, exc⟩ := p
      cases exc with
      | some e =>
        simp [CommandsHandler.try_execute, hrec, hval] at hexec
      | none =>
        cases v with
        | true => rfl
        | false =>
          simp [CommandsHandler.try_execute, hrec, hval] at hexec
  · intro hval
    simp [CommandsHandler.try_execute, hrec, hval]

/-- Witness for `try_execute_spec`: the C2 witness scenario (private message
`"ping x"`, zero-parameter command `ping` whose checks pass) executes. -/
theorem try_execute_spec_witness :
    ((CommandsHandler.mk
      [{ name := lit "ping", cb := ⟨lit "ping", none⟩,
         attributes := ⟨0, 1, ChallongeAccess.notRequired, none⟩ }]).try_execute
      ⟨fun _ _ => 0, fun _ => 1, fun _ => (none, none), fun _ _ _ => .ok true,
       fun _ => ⟨0, 0, 0, 0⟩, fun _ => ⟨[]⟩⟩
      ⟨0⟩
      ⟨lit "ping x", ⟨0⟩, ⟨0, true⟩, 0, []⟩).executed = true :=
  (try_execute_spec
      (CommandsHandler.mk
        [{ name := lit "ping", cb := ⟨lit "ping", none⟩,
           attributes := ⟨0, 1, ChallongeAccess.notRequired, none⟩ }])
      ⟨fun _ _ => 0, fun _ => 1, fun _ => (none, none), fun _ _ _ => .ok true,
       fun _ => ⟨0, 0, 0, 0⟩, fun _ => ⟨[]⟩⟩
      ⟨0⟩
      ⟨lit "ping x", ⟨0⟩, ⟨0, true⟩, 0, []⟩
      { name := lit "ping", cb := ⟨lit "ping", none⟩,
        attributes := ⟨0, 1, ChallongeAccess.notRequired, none⟩ }
      [lit "x"] (by decide)).2.2.mpr (by rfl)

/-- C6: driving `AuthorizedCommandsWrapper` to exhaustion (when no
command's validation raises, and the listed commands' `simple_print`s are
defined) yields, in registry order, exactly the `simple_print` renderings of
those commands that validate with an empty argument list or fail precisely
with `MissingParameters`; every other command is skipped without ending the
iteration, and the iteration ends when the registry is exhausted. -/
theorem authorized_commands_iteration (env : Env) (client : Client)
    (message : Message) (cmds : List Command)
    (hok : ∀ c ∈ cmds,
      (c.validate_context env client message []).toOption.isSome = true)
    (hpr : ∀ c ∈ cmds, listedPred env client message c = true →
      c.simple_print.isSome = true) :
    authorizedAll env client message cmds =
      .ok (cmds.filterMap (fun c =>
        if listedPred env client message c then c.simple_print else none)) := by
  induction cmds with
  | nil => simp [authorizedAll]
  | cons c rest ih =>
    have hokc := hok c (List.mem_cons_self c rest)
    cases hval : c.validate_context env client message [] with
    | error e =>
      rw [hval] at hokc
      simp [Except.toOption] at hokc
    | ok p =>
      obtain ⟨v, exc⟩ := p
      simp only [authorizedAll, hval]
      have ihr := ih (fun x hx => hok x (List.mem_cons_of_mem c hx))
        (fun x hx => hpr x (List.mem_cons_of_mem c hx))
      by_cases hlist : (v || isMissingParameters exc) = true
      · rw [if_pos hlist]
        have hlp : listedPred env client message c = true := by
          simp [listedPred, hval, hlist]
        have hsome := hpr c (List.mem_cons_self c rest) hlp
        obtain ⟨s, hs⟩ := Option.isSome_iff_exists.mp hsome
        rw [hs, ihr]
        simp [List.filterMap_cons, hlp, hs]
      · rw [if_neg hlist]
        have hlp : listedPred env client message c = false := by
          simp only [listedPred, hval]
          exact Bool.not_eq_true _ ▸ (Bool.eq_false_iff.mpr hlist)
        rw [ihr]
        simp [List.filterMap_cons, hlp]

/-- Witness for `authorized_commands_iteration`: a three-command registry —
`ping` (passes), `announce` (fails only with `MissingParameters`), `mod`
(fails the permission check) — for a permission-0 invoker lists exactly
`ping` and `announce`, in order. -/
theorem authorized_commands_iteration_witness :
    authorizedAll
      ⟨fun _ _ => 0, fun _ => 1, fun _ => (none, none), fun _ _ _ => .ok true,
       fun _ => ⟨0, 0, 0, 0⟩, fun _ => ⟨[]⟩⟩
      ⟨0⟩ ⟨[], ⟨0⟩, ⟨0, false⟩, 0, []⟩
      [{ name := lit "ping", cb := ⟨lit "ping", some (lit "Ping!")⟩,
         attributes := ⟨0, 1, ChallongeAccess.notRequired, none⟩ },
       { name := lit "announce", cb := ⟨lit "announce", some (lit "Say.")⟩,
         attributes := ⟨0, 1, ChallongeAccess.notRequired, none⟩,
         reqParams := [lit "msg"] },
       { name := lit "mod", cb := ⟨lit "mod", some (lit "Mod.")⟩,
         attributes := ⟨5, 1, ChallongeAccess.notRequired, none⟩ }] =
      .ok
        ([{ name := lit "ping", cb := ⟨lit "ping", some (lit "Ping!")⟩,
            attributes := ⟨0, 1, ChallongeAccess.notRequired, none⟩ },
          { name := lit "announce", cb := ⟨lit "announce", some (lit "Say.")⟩,
            attributes := ⟨0, 1, ChallongeAccess.notRequired, none⟩,
            reqParams := [lit "msg"] },
          { name := lit "mod", cb := ⟨lit "mod", some (lit "Mod.")⟩,
            attributes := ⟨5, 1, ChallongeAccess.notRequired, none⟩ }].filterMap
          (fun c =>
            if listedPred
                ⟨fun _ _ => 0, fun _ => 1, fun _ => (none, none),
                 fun _ _ _ => .ok true, fun _ => ⟨0, 0, 0, 0⟩, fun _ => ⟨[]⟩⟩
                ⟨0⟩ ⟨[], ⟨0⟩, ⟨0, false⟩, 0, []⟩ c
            then c.simple_print else none)) :=
  authorized_commands_iteration
    ⟨fun _ _ => 0, fun _ => 1, fun _ => (none, none), fun _ _ _ => .ok true,
     fun _ => ⟨0, 0, 0, 0⟩, fun _ => ⟨[]⟩⟩
    ⟨0⟩ ⟨[], ⟨0⟩, ⟨0, false⟩, 0, []⟩
    [{ name := lit "ping", cb := ⟨lit "ping", some (lit "Ping!")⟩,
       attributes := ⟨0, 1, ChallongeAccess.notRequired, none⟩ },
     { name := lit "announce", cb := ⟨lit "announce", some (lit "Say.")⟩,
       attributes := ⟨0, 1, ChallongeAccess.notRequired, none⟩,
       reqParams := [lit "msg"] },
     { name := lit "mod", cb := ⟨lit "mod", some (lit "Mod.")⟩,
       attributes := ⟨5, 1, ChallongeAccess.notRequired, none⟩ }]
    (by decide) (by decide)

end ACDB

